import Mathlib

/-!
Shallow embedding of the YOLO_train dataset-preparation scripts
(`scripts/auto_format_dataset.py`, `scripts/prepare_data.py`,
`scripts/download_dataset.py`, `scripts/run_pipeline.py`) together with
proofs of the behavioural properties stated in the specification.

File names are modelled as lists of characters, paths as lists of path
components, and the filesystem as the pair of the set of existing
directories and the set of existing regular files.  All definitions are
executable so that every property can be checked on concrete inputs.
-/

namespace YoloTrain

/-- Model of one path component (a file or directory name): the list of its
characters, mirroring a Python string. -/
abbrev Name := List Char

/-- Model of a filesystem path: the list of its components from the root. -/
abbrev Path := List Name

def trainN : Name := "train".toList

def valN : Name := "val".toList

def testN : Name := "test".toList

def imagesN : Name := "images".toList

def labelsN : Name := "labels".toList

/-- Model of `pathlib.PurePath.suffix`: the final extension of a name,
including the dot; empty when the name has no dot, starts with its only
dot, or ends with a dot (CPython: `0 < name.rfind('.') < len(name)-1`). -/
def pathSuffix (name : Name) : Name :=
  let post := name.reverse.takeWhile fun c => c ≠ '.'
  if post.length + 1 < name.length ∧ 0 < post.length then '.' :: post.reverse else []

/-- Model of Python `str.lower` on the ASCII range, which is the only range
extensions use here: uppercase ASCII letters are shifted to lowercase. -/
def asciiLowerChar (c : Char) : Char :=
  if 'A' ≤ c ∧ c ≤ 'Z' then Char.ofNat (c.toNat + 32) else c

/-- Lowercasing of a whole name, `str.lower` in the scripts. -/
def asciiLower (s : Name) : Name := s.map asciiLowerChar

/-- The image extensions recognised by `auto_format_dataset.py`
(`SUPPORTED_IMAGE_EXTS = (".jpg", ".jpeg", ".png", ".bmp")`). -/
def SUPPORTED_IMAGE_EXTS : List Name :=
  [".jpg".toList, ".jpeg".toList, ".png".toList, ".bmp".toList]

/-- Final component of a path (Python `Path.name`); the empty name for the
empty path. -/
def lastName (p : Path) : Name := p.getLastD []

/-- Test from `discover_source_dirs` line 32: the entry's suffix, lowered,
is one of the supported image extensions. -/
def isImageEntry (q : Path) : Bool :=
  SUPPORTED_IMAGE_EXTS.contains (asciiLower (pathSuffix (lastName q)))

/-- Test from `discover_source_dirs` line 33: the entry's suffix, lowered,
equals `.txt`. -/
def isLabelEntry (q : Path) : Bool :=
  asciiLower (pathSuffix (lastName q)) == ".txt".toList

/-- Model of `Path.with_suffix(".txt")`: drop the current suffix of a name
and append `.txt`; used to pair a label file with an image file. -/
def withTxtSuffix (name : Name) : Name :=
  name.take (name.length - (pathSuffix name).length) ++ ".txt".toList

/-- Filesystem state: the directories and the regular files that exist.
The scripts only ever query existence, direct children, and descendant
directories, and only ever mutate by `mkdir(parents=True, exist_ok=True)`
and `shutil.copy2`. -/
structure FS where
  dirs : List Path
  files : List Path
deriving DecidableEq

/-- Model of `Path.exists()`: the path is an existing directory or file. -/
def existsPath (fs : FS) (p : Path) : Bool :=
  decide (p ∈ fs.dirs) || decide (p ∈ fs.files)

/-- Whether `q` is a direct child of directory `p`. -/
def isChildOf (q p : Path) : Bool :=
  !q.isEmpty && decide (q.dropLast = p)

/-- Model of `Path.iterdir()` / `Path.glob("*")`: the direct children
(directories and files) of `p`. -/
def children (fs : FS) (p : Path) : List Path :=
  (fs.dirs ++ fs.files).filter fun q => isChildOf q p

/-- The candidate-selection key of `auto_format_dataset` line 80:
`sum(1 for _ in p.glob("*"))`, the number of direct entries of `p`. -/
def entryCount (fs : FS) (p : Path) : ℕ := (children fs p).length

/-- Sort key of a path: Python compares `PurePath` values by their joined
string (`_str_normcase`), i.e. code-point-lexicographically on the path
string with `/` separators. -/
def pathKey (p : Path) : List ℕ := (List.intercalate ['/'] p).map Char.toNat

/-- Boolean path comparison used to model Python's `sorted` on paths. -/
def pathLe (p q : Path) : Bool := decide (pathKey p ≤ pathKey q)

/-- Ordered insertion for the model of Python's `sorted`. -/
def insertLe (le : α → α → Bool) (x : α) : List α → List α
  | [] => [x]
  | y :: ys => if le x y then x :: y :: ys else y :: insertLe le x ys

/-- Insertion sort; extensionally the sorted order that Python's stable
`sorted` builtin returns for path comparisons. -/
def sortLe (le : α → α → Bool) : List α → List α
  | [] => []
  | x :: xs => insertLe le x (sortLe le xs)

/-- Model of `sorted(...)` on paths. -/
def sortPaths (l : List Path) : List Path := sortLe pathLe l

/-- Qualification test of `discover_source_dirs` lines 32-34: the directory
directly contains at least one image entry and at least one `.txt` entry. -/
def qualifies (fs : FS) (d : Path) : Bool :=
  !((children fs d).filter isImageEntry).isEmpty &&
    !((children fs d).filter isLabelEntry).isEmpty

/-- Model of `base_path.rglob("*")` restricted to `p.is_dir()`: every
directory strictly below `base`. -/
def strictSubdirs (fs : FS) (base : Path) : List Path :=
  fs.dirs.filter fun q => base.isPrefixOf q && !(q == base)

/-- Embedding of `discover_source_dirs` (auto_format_dataset.py lines
28-36): the strict subdirectories of `base`, in sorted order, that contain
both image files and label files. -/
def discover_source_dirs (fs : FS) (base : Path) : List Path :=
  (sortPaths (strictSubdirs fs base)).filter (qualifies fs)

/-- Model of Python `max(xs, key=key)` on the nonempty list `x :: l`:
scan left to right keeping the current maximum, replacing it only on a
strictly greater key, so the first maximum wins ties. -/
def pyMax (key : α → ℕ) : α → List α → α
  | x, [] => x
  | x, y :: ys => pyMax key (if key x < key y then y else x) ys

/-- Failures of the formatting script, auto_format_dataset.py: a missing
base directory (line 63), no candidate directory (line 74), no image files
in the selected source (line 86), and a non-empty target directory
(line 44). -/
inductive FmtErr where
  | baseMissing
  | noCandidate
  | noImages
  | nonEmptyTarget
deriving DecidableEq

/-- Source-directory selection, auto_format_dataset.py lines 73-81: fail on
an empty candidate list, otherwise take the candidate maximising the direct
entry count (first maximum on ties). -/
def select_source (fs : FS) : List Path → Except FmtErr Path
  | [] => .error .noCandidate
  | c :: cs => .ok (pyMax (entryCount fs) c cs)

/-- Linear congruential step driving the shuffle model. -/
def lcgNext (s : ℕ) : ℕ := (6364136223846793005 * s + 1442695040888963407) % 2 ^ 64

/-- Removal of the element at index `i`, returning it with the remainder. -/
def extractAt : List α → ℕ → Option (α × List α)
  | [], _ => none
  | x :: xs, 0 => some (x, xs)
  | x :: xs, i + 1 => (extractAt xs i).map fun r => (r.1, x :: r.2)

/-- Fuelled selection shuffle: repeatedly extract the element at a
pseudo-randomly chosen index. -/
def shuffleGo : ℕ → ℕ → List α → List α
  | _, 0, xs => xs
  | st, fuel + 1, xs =>
    match extractAt xs (st % xs.length) with
    | none => xs
    | some (a, rest) => a :: shuffleGo (lcgNext st) fuel rest

/-- Modelled from the spec: `random.seed(seed)` followed by
`random.shuffle(images)` (Python standard library, external to the
repository) is "a deterministic pseudo-random permutation seeded by
`seed`".  The model is a seeded Fisher-Yates-style selection shuffle driven
by a linear congruential generator: a deterministic function of the seed
and the input that permutes the input, which is all the code relies on. -/
def shuffle (seed : ℕ) (xs : List α) : List α :=
  shuffleGo (lcgNext seed) xs.length xs

/-- Embedding of `split_idx = int(len(images) * train_split)`
(auto_format_dataset.py line 92) in exact rational arithmetic: for a
non-negative ratio, `int` truncation equals the floor
`⌊n * ratio⌋ = n * ratio.num / ratio.den`. -/
def splitIndex (n : ℕ) (ratio : ℚ) : ℕ := n * ratio.num.toNat / ratio.den

/-- The split planner of auto_format_dataset.py lines 89-94: shuffle, cut
at `splitIndex`, then apply the `or` fallbacks
`train_items = images[:split_idx] or images` and
`val_items = images[split_idx:] or images[:len(images) // 5] or images`. -/
def plan (images : List α) (ratio : ℚ) (seed : ℕ) : List α × List α :=
  let shuffled := shuffle seed images
  let si := splitIndex images.length ratio
  let t := if (shuffled.take si).isEmpty then shuffled else shuffled.take si
  let v :=
    if (shuffled.drop si).isEmpty then
      if (shuffled.take (images.length / 5)).isEmpty then shuffled
      else shuffled.take (images.length / 5)
    else shuffled.drop si
  (t, v)

/-- Creation of a single directory if absent. -/
def addDir (fs : FS) (p : Path) : FS :=
  if p ∈ fs.dirs then fs else ⟨p :: fs.dirs, fs.files⟩

/-- Model of `Path.mkdir(parents=True, exist_ok=True)`: create every
non-empty prefix of `p` that does not already exist. -/
def mkdirp (fs : FS) (p : Path) : FS :=
  ((List.range p.length).map fun i => p.take (i + 1)).foldl addDir fs

/-- Creation (or overwrite) of a single file by `shutil.copy2`. -/
def addFile (fs : FS) (p : Path) : FS :=
  if p ∈ fs.files then fs else ⟨fs.dirs, p :: fs.files⟩

/-- The four canonical leaf directories in the order the `ensure_clean_targets`
loops visit them: `train/images`, `train/labels`, `val/images`, `val/labels`. -/
def targetDirs (base : Path) : List Path :=
  [base ++ [trainN, imagesN], base ++ [trainN, labelsN],
   base ++ [valN, imagesN], base ++ [valN, labelsN]]

/-- Loop body of `ensure_clean_targets` (auto_format_dataset.py lines
41-48): for each target in order, fail if it exists and has any entry,
otherwise create it with parents; the failure keeps the state reached so
far. -/
def ensureGo : FS → List Path → Option FmtErr × FS
  | fs, [] => (none, fs)
  | fs, t :: ts =>
    if existsPath fs t && !(children fs t).isEmpty then (some .nonEmptyTarget, fs)
    else ensureGo (mkdirp fs t) ts

/-- Embedding of `ensure_clean_targets` (auto_format_dataset.py lines 39-48). -/
def ensure_clean_targets (fs : FS) (base : Path) : Option FmtErr × FS :=
  ensureGo fs (targetDirs base)

/-- Embedding of `copy_split` (auto_format_dataset.py lines 51-58): copy
each image into `base/split/images`, and, when the sibling `.txt` label
exists, copy it into `base/split/labels`. -/
def copy_split (fs : FS) (images : List Path) (base : Path) (split : Name) : FS :=
  images.foldl
    (fun acc img =>
      let acc1 := addFile acc (base ++ [split, imagesN, lastName img])
      if (img.dropLast ++ [withTxtSuffix (lastName img)]) ∈ acc1.files then
        addFile acc1 (base ++ [split, labelsN, withTxtSuffix (lastName img)])
      else acc1)
    fs

/-- Result of a run of the formatting script. -/
inductive FmtOutcome where
  | skipped
  | formatted
deriving DecidableEq

/-- Body of `auto_format_dataset` after a source directory has been
selected (auto_format_dataset.py lines 83-98): list and sort the images,
fail when there are none, plan the split, prepare the targets, and copy
the two splits. -/
def format_body (fs : FS) (base : Path) (ratio : ℚ) (seed : ℕ) (src : Path) :
    Except FmtErr FmtOutcome × FS :=
  let images := sortPaths ((children fs src).filter isImageEntry)
  if images.isEmpty then (.error .noImages, fs)
  else
    let pr := plan images ratio seed
    match ensure_clean_targets fs base with
    | (some e, fs1) => (.error e, fs1)
    | (none, fs1) =>
      (.ok .formatted, copy_split (copy_split fs1 pr.1 base trainN) pr.2 base valN)

/-- Embedding of `auto_format_dataset` (auto_format_dataset.py lines
61-100): existence check, already-formatted pre-check, discovery and
selection, then the formatting body.  The returned state is the filesystem
after the run, including the partial mutation a failure leaves behind. -/
def auto_format_dataset (fs : FS) (base : Path) (ratio : ℚ) (seed : ℕ) :
    Except FmtErr FmtOutcome × FS :=
  if !existsPath fs base then (.error .baseMissing, fs)
  else if existsPath fs (base ++ [trainN, imagesN]) &&
      (existsPath fs (base ++ [valN, imagesN]) ||
        existsPath fs (base ++ [testN, imagesN])) then
    (.ok .skipped, fs)
  else
    match select_source fs (discover_source_dirs fs base) with
    | .error e => (.error e, fs)
    | .ok src => format_body fs base ratio seed src

/-- Embedding of `auto_format_if_needed` (download_dataset.py lines 83-101):
skip when the layout already looks canonical, otherwise run the formatting
script with its CLI defaults `--train-split 0.8 --seed 42`. -/
def auto_format_if_needed (fs : FS) (dir : Path) : Except FmtErr FmtOutcome × FS :=
  if existsPath fs (dir ++ [trainN, imagesN]) &&
      (existsPath fs (dir ++ [valN, imagesN]) ||
        existsPath fs (dir ++ [testN, imagesN])) then
    (.ok .skipped, fs)
  else auto_format_dataset fs dir (mkRat 4 5) 42

/-- Failures of manifest generation, prepare_data.py lines 29-37: a missing
class list and a missing `train/images` directory. -/
inductive PrepErr where
  | missingClasses
  | missingTrainSplit
deriving DecidableEq

/-- Which directory the validation path of the manifest resolved to;
`fromTest` and `fromTrain` are accompanied by a printed warning. -/
inductive ValChoice where
  | fromVal
  | fromTest
  | fromTrain
deriving DecidableEq

/-- The written `data.yaml` descriptor: train path, validation path, class
count `nc`, and the class names in order. -/
structure Manifest where
  train : Path
  val : Path
  nc : ℕ
  names : List Name
deriving DecidableEq

/-- Embedding of `generate_data_yaml` (prepare_data.py lines 26-58; the
copy in download_dataset.py lines 104-140 resolves identically): require a
non-empty class list and an existing `train/images`, then resolve the
validation path as `val/images`, else `test/images` with a warning, else
`train/images` with a warning. -/
def generate_data_yaml (classes : List Name) (root : Path) (fs : FS) :
    Except PrepErr (Manifest × ValChoice) :=
  if classes.isEmpty then .error .missingClasses
  else
    let trainDir := root ++ [trainN, imagesN]
    let valDir := root ++ [valN, imagesN]
    let testDir := root ++ [testN, imagesN]
    if !existsPath fs trainDir then .error .missingTrainSplit
    else if existsPath fs valDir then .ok (⟨trainDir, valDir, classes.length, classes⟩, .fromVal)
    else if existsPath fs testDir then .ok (⟨trainDir, testDir, classes.length, classes⟩, .fromTest)
    else .ok (⟨trainDir, trainDir, classes.length, classes⟩, .fromTrain)

/-- The four pipeline stages of run_pipeline.py in their fixed order. -/
inductive Stage where
  | download
  | format
  | prepare
  | train
deriving DecidableEq

/-- Position of a stage in the fixed execution order. -/
def stageIdx : Stage → ℕ
  | .download => 0
  | .format => 1
  | .prepare => 2
  | .train => 3

/-- Behaviour of one external stage command: success, or a
`subprocess.CalledProcessError` carrying `returncode` when available. -/
inductive StageOutcome where
  | success
  | failure (code : Option Int)
deriving DecidableEq

/-- The orchestrator's four `--skip-*` switches. -/
structure Skips where
  download : Bool
  format : Bool
  prepare : Bool
  train : Bool
deriving DecidableEq

/-- The behaviour of the four external stage commands for one run. -/
structure StageEnv where
  download : StageOutcome
  format : StageOutcome
  prepare : StageOutcome
  train : StageOutcome
deriving DecidableEq

def skipOf (sk : Skips) : Stage → Bool
  | .download => sk.download
  | .format => sk.format
  | .prepare => sk.prepare
  | .train => sk.train

def outcomeOf (env : StageEnv) : Stage → StageOutcome
  | .download => env.download
  | .format => env.format
  | .prepare => env.prepare
  | .train => env.train

/-- Sequential stage execution, run_pipeline.py lines 64-118: a skipped
stage is passed over; a successful stage lets the run continue; a failing
stage stops the run at once with exit code
`exc.returncode if exc.returncode is not None else 1`.  The result is the
list of stages that were actually invoked and the process exit code. -/
def runStages : List (Stage × Bool × StageOutcome) → List Stage × Int
  | [] => ([], 0)
  | (s, skip, out) :: rest =>
    if skip then runStages rest
    else
      match out with
      | .success => ((s :: (runStages rest).1), (runStages rest).2)
      | .failure c => ([s], c.getD 1)

/-- Embedding of `main` of run_pipeline.py (lines 64-118): the four stages
in the fixed order download, format, prepare, train. -/
def run_pipeline (sk : Skips) (env : StageEnv) : List Stage × Int :=
  runStages
    [(.download, sk.download, env.download),
     (.format, sk.format, env.format),
     (.prepare, sk.prepare, env.prepare),
     (.train, sk.train, env.train)]

/-! Concrete filesystems used to instantiate the theorems below. -/

/-- Fixture: a root with two equally populated candidate subdirectories. -/
def fsTwoCands : FS :=
  ⟨[["data".toList], ["data".toList, "a".toList], ["data".toList, "b".toList]],
   [["data".toList, "a".toList, "x.jpg".toList],
    ["data".toList, "a".toList, "x.txt".toList],
    ["data".toList, "b".toList, "y.jpg".toList],
    ["data".toList, "b".toList, "y.txt".toList]]⟩

/-- Fixture: a root that itself holds a paired image and label but has no
subdirectory at all. -/
def fsFlatRoot : FS :=
  ⟨[["data".toList]],
   [["data".toList, "a.jpg".toList], ["data".toList, "a.txt".toList]]⟩

/-- Fixture: a root already in canonical layout. -/
def fsCanonical : FS :=
  ⟨[["data".toList], ["data".toList, trainN, imagesN], ["data".toList, valN, imagesN]], []⟩

/-- Fixture: a root whose `train/images` already holds a file. -/
def fsDirtyTrain : FS :=
  ⟨[["data".toList], ["data".toList, trainN, imagesN]],
   [["data".toList, trainN, imagesN, "x.jpg".toList]]⟩

/-- Fixture: a bare root with no targets yet. -/
def fsBareRoot : FS := ⟨[["data".toList]], []⟩

/-- Fixture: a root with one valid source candidate but a non-empty
`train/images` target, so formatting aborts on the target check. -/
def fsDirtyWithSource : FS :=
  ⟨[["data".toList], ["data".toList, "src".toList], ["data".toList, trainN, imagesN]],
   [["data".toList, "src".toList, "a.jpg".toList],
    ["data".toList, "src".toList, "a.txt".toList],
    ["data".toList, trainN, imagesN, "x.jpg".toList]]⟩

/-- Fixture: a root with `train/images` and `test/images` but no `val/images`. -/
def fsTrainTest : FS :=
  ⟨[["data".toList], ["data".toList, trainN, imagesN], ["data".toList, testN, imagesN]], []⟩

/-- The root path used by the fixtures. -/
def dataDir : Path := ["data".toList]

/-- First candidate directory of fsTwoCands. -/
def candA : Path := ["data".toList, "a".toList]

/-- Second candidate directory of fsTwoCands. -/
def candB : Path := ["data".toList, "b".toList]

/-- Class list used to instantiate the manifest theorems. -/
def carClasses : List Name := ["car".toList]

/-! Helper lemmas about the shuffle model. -/

theorem extractAt_perm {α : Type} (xs : List α) :
    ∀ (i : ℕ) (a : α) (rest : List α),
      extractAt xs i = some (a, rest) → xs.Perm (a :: rest) := by
  induction xs with
  | nil => intro i a rest h; simp [extractAt] at h
  | cons x xs ih =>
    intro i a rest h
    cases i with
    | zero =>
      simp only [extractAt, Option.some.injEq, Prod.mk.injEq] at h
      rw [← h.1, ← h.2]
    | succ i =>
      simp only [extractAt, Option.map_eq_some'] at h
      obtain ⟨⟨a', rest'⟩, hr, he⟩ := h
      simp only [Prod.mk.injEq] at he
      obtain ⟨rfl, rfl⟩ := he
      exact ((ih i a' rest' hr).cons x).trans (List.Perm.swap a' x rest')

theorem shuffleGo_perm {α : Type} :
    ∀ (fuel st : ℕ) (xs : List α), (shuffleGo st fuel xs).Perm xs
  | 0, _, _ => List.Perm.refl _
  | fuel + 1, st, xs => by
    rw [shuffleGo]
    cases h : extractAt xs (st % xs.length) with
    | none => exact List.Perm.refl _
    | some r =>
      exact (((shuffleGo_perm fuel (lcgNext st) r.2).cons r.1).trans
        (extractAt_perm xs _ r.1 r.2 h).symm)

theorem shuffle_perm {α : Type} (s : ℕ) (xs : List α) : (shuffle s xs).Perm xs :=
  shuffleGo_perm xs.length (lcgNext s) xs

theorem shuffle_length {α : Type} (s : ℕ) (xs : List α) :
    (shuffle s xs).length = xs.length :=
  (shuffle_perm s xs).length_eq

theorem shuffle_ne_nil {α : Type} (s : ℕ) {xs : List α} (h : xs ≠ []) :
    shuffle s xs ≠ [] := by
  intro hc
  have hp := (shuffle_perm s xs).symm
  rw [hc] at hp
  exact h hp.eq_nil

theorem shuffle_singleton {α : Type} (s : ℕ) (x : α) : shuffle s [x] = [x] := by
  rw [shuffle]
  rw [show ([x] : List α).length = 1 from rfl]
  rw [shuffleGo]
  simp only [List.length_singleton, Nat.mod_one]
  rfl

/-! Helper lemmas about the split index and the planner. -/

theorem splitIndex_lt {n : ℕ} {r : ℚ} (hn : 0 < n) (h1 : r < 1) :
    splitIndex n r < n := by
  have hnum : r.num < (r.den : ℤ) := Rat.lt_one_iff_num_lt_denom.mp h1
  have hd : 0 < r.den := r.den_pos
  have ht : r.num.toNat < r.den := by omega
  rw [splitIndex, Nat.div_lt_iff_lt_mul r.den_pos]
  exact mul_lt_mul_of_pos_left ht hn

theorem splitIndex_eq_floor {r : ℚ} (n : ℕ) (h : 0 ≤ r) :
    (splitIndex n r : ℤ) = ⌊(n : ℚ) * r⌋ := by
  have hnum : (r.num.toNat : ℤ) = r.num := Int.toNat_of_nonneg (Rat.num_nonneg.mpr h)
  have hmul : (n : ℚ) * r = ((n * r.num : ℤ) : ℚ) / ((r.den : ℕ) : ℚ) := by
    conv_lhs => rw [← Rat.num_div_den r]
    push_cast
    ring
  rw [hmul, Rat.floor_intCast_div_natCast, splitIndex]
  conv_rhs => rw [← hnum]
  push_cast
  ring

theorem plan_eq_take_drop {α : Type} (xs : List α) (r : ℚ) (s : ℕ)
    (h1 : 1 ≤ splitIndex xs.length r) (h2 : splitIndex xs.length r < xs.length) :
    plan xs r s = ((shuffle s xs).take (splitIndex xs.length r),
      (shuffle s xs).drop (splitIndex xs.length r)) := by
  have hlen : (shuffle s xs).length = xs.length := shuffle_length s xs
  have ht : ¬ ((shuffle s xs).take (splitIndex xs.length r)).isEmpty = true := by
    rw [List.isEmpty_iff, List.take_eq_nil_iff]
    push_neg
    refine ⟨by omega, ?_⟩
    intro hnil
    rw [hnil] at hlen
    simp at hlen
    omega
  have hd : ¬ ((shuffle s xs).drop (splitIndex xs.length r)).isEmpty = true := by
    rw [List.isEmpty_iff, List.drop_eq_nil_iff]
    omega
  rw [plan, if_neg ht, if_neg hd]

/-- C1 as stated is false on the code: for the one-element list with ratio
1/2 the train fallback fires, both halves equal the whole input, and the
multiset union has the element twice, not once, even though all of the
claim's preconditions (non-empty input, ratio strictly between 0 and 1)
hold at this input. -/
theorem C1_counterexample :
    ((0 : ℚ) < mkRat 1 2 ∧ mkRat 1 2 < 1 ∧ ([0] : List ℕ) ≠ []) ∧
    plan ([0] : List ℕ) (mkRat 1 2) 42 = ([0], [0]) ∧
    ¬ (((plan ([0] : List ℕ) (mkRat 1 2) 42).1 : Multiset ℕ) +
        ((plan ([0] : List ℕ) (mkRat 1 2) 42).2 : Multiset ℕ) =
        (([0] : List ℕ) : Multiset ℕ)) := by
  refine ⟨by decide, by decide, by decide⟩

/-- C1 (amended): for every non-empty list F, seed S, and ratio R strictly
between 0 and 1 such that the split index floor(len(F)*R) is at least 1
(equivalently, the train slice is non-empty, so no fallback fires), the
planner's train and val parts form a permutation of F — their multiset
union is F, no element is duplicated beyond its multiplicity in F, nodup
inputs stay nodup — and both parts are non-empty.  In the excluded
degenerate case the documented overlap fallback makes train and val share
elements, as C1_counterexample shows. -/
theorem C1 (F : List ℕ) (R : ℚ) (S : ℕ) (hF : F ≠ []) (h0 : 0 < R) (h1 : R < 1)
    (hsi : 1 ≤ splitIndex F.length R) :
    ((plan F R S).1 : Multiset ℕ) + ((plan F R S).2 : Multiset ℕ) = (F : Multiset ℕ) ∧
    ((plan F R S).1 ++ (plan F R S).2).Perm F ∧
    (F.Nodup → ((plan F R S).1 ++ (plan F R S).2).Nodup) ∧
    (plan F R S).1 ≠ [] ∧ (plan F R S).2 ≠ [] := by
  have hn : 0 < F.length := List.length_pos.mpr hF
  have hlt : splitIndex F.length R < F.length := splitIndex_lt hn h1
  have hpl := plan_eq_take_drop F R S hsi hlt
  have hlen := shuffle_length S F
  have hperm : ((plan F R S).1 ++ (plan F R S).2).Perm F := by
    rw [hpl]
    simpa [List.take_append_drop] using shuffle_perm S F
  refine ⟨?_, hperm, fun hnd => (hperm.nodup_iff).mpr hnd, ?_, ?_⟩
  · simpa using Multiset.coe_eq_coe.mpr hperm
  · rw [hpl]
    rw [Ne, List.take_eq_nil_iff]
    push_neg
    refine ⟨by omega, ?_⟩
    intro hnil
    rw [hnil] at hlen
    simp at hlen
    omega
  · rw [hpl]
    rw [Ne, List.drop_eq_nil_iff]
    omega

/-- Witness instantiating C1 at F = [1,2,3], R = 1/2, S = 0, where the
split index is 1. -/
theorem C1_witness :
    ((plan ([1, 2, 3] : List ℕ) (mkRat 1 2) 0).1 : Multiset ℕ) +
      ((plan ([1, 2, 3] : List ℕ) (mkRat 1 2) 0).2 : Multiset ℕ) =
      (([1, 2, 3] : List ℕ) : Multiset ℕ) ∧
    ((plan ([1, 2, 3] : List ℕ) (mkRat 1 2) 0).1 ++
      (plan ([1, 2, 3] : List ℕ) (mkRat 1 2) 0).2).Perm [1, 2, 3] ∧
    (([1, 2, 3] : List ℕ).Nodup →
      ((plan ([1, 2, 3] : List ℕ) (mkRat 1 2) 0).1 ++
        (plan ([1, 2, 3] : List ℕ) (mkRat 1 2) 0).2).Nodup) ∧
    (plan ([1, 2, 3] : List ℕ) (mkRat 1 2) 0).1 ≠ [] ∧
    (plan ([1, 2, 3] : List ℕ) (mkRat 1 2) 0).2 ≠ [] :=
  C1 [1, 2, 3] (mkRat 1 2) 0 (by decide) (by decide) (by decide) (by decide)

/-- C3: on a single-item input with ratio strictly between 0 and 1 the
fallback chain yields train and val both equal to the single-item list
(full overlap), and on every non-empty input both planner outputs are
non-empty. -/
theorem C3 :
    (∀ (x : ℕ) (R : ℚ) (S : ℕ), 0 < R → R < 1 → plan [x] R S = ([x], [x])) ∧
    (∀ (F : List ℕ) (R : ℚ) (S : ℕ), F ≠ [] →
      (plan F R S).1 ≠ [] ∧ (plan F R S).2 ≠ []) := by
  constructor
  · intro x R S h0 h1
    have hsi : splitIndex 1 R = 0 := Nat.lt_one_iff.mp (splitIndex_lt Nat.one_pos h1)
    simp [plan, shuffle_singleton, hsi, List.length_singleton]
  · intro F R S hF
    have hne := shuffle_ne_nil S hF
    simp only [plan]
    constructor <;> split_ifs <;> simp_all [List.isEmpty_iff]

/-- Witness instantiating both halves of C3 at concrete inputs. -/
theorem C3_witness :
    plan ([5] : List ℕ) (mkRat 1 2) 7 = ([5], [5]) ∧
    (plan ([1, 2] : List ℕ) (mkRat 1 2) 7).1 ≠ [] ∧
    (plan ([1, 2] : List ℕ) (mkRat 1 2) 7).2 ≠ [] :=
  ⟨C3.1 5 (mkRat 1 2) 7 (by decide) (by decide),
   C3.2 [1, 2] (mkRat 1 2) 7 (by decide)⟩

/-- C4: the planner is deterministic — two calls with equal image lists,
equal ratios and equal seeds return equal (train, val) pairs; the planner
is a pure function of exactly these three inputs. -/
theorem C4 (F₁ F₂ : List ℕ) (R₁ R₂ : ℚ) (S₁ S₂ : ℕ)
    (hF : F₁ = F₂) (hR : R₁ = R₂) (hS : S₁ = S₂) :
    plan F₁ R₁ S₁ = plan F₂ R₂ S₂ := by
  rw [hF, hR, hS]

/-- Witness instantiating C4 at a concrete repeated call. -/
theorem C4_witness :
    plan ([1, 2, 3] : List ℕ) (mkRat 4 5) 42 = plan ([1, 2, 3] : List ℕ) (mkRat 4 5) 42 :=
  C4 [1, 2, 3] [1, 2, 3] (mkRat 4 5) (mkRat 4 5) 42 42 rfl rfl rfl

/-- C9: the split index is floor(len(F) * R); whenever neither slice is
empty (index between 1 and len-1) the train part is exactly the first
splitIndex elements of the shuffled permutation and the val part exactly
the rest; and for 10 images at ratio 0.8 the index is 8, train gets 8
entries, val gets 2. -/
theorem C9 (F : List ℕ) (R : ℚ) (S : ℕ) (h0 : 0 ≤ R)
    (h1 : 1 ≤ splitIndex F.length R) (h2 : splitIndex F.length R < F.length) :
    (splitIndex F.length R : ℤ) = ⌊(F.length : ℚ) * R⌋ ∧
    (plan F R S).1 = (shuffle S F).take (splitIndex F.length R) ∧
    (plan F R S).2 = (shuffle S F).drop (splitIndex F.length R) ∧
    (F.length = 10 → R = 4 / 5 →
      splitIndex F.length R = 8 ∧
      (plan F R S).1.length = 8 ∧ (plan F R S).2.length = 2) := by
  have hpl := plan_eq_take_drop F R S h1 h2
  have hbr := splitIndex_eq_floor F.length h0
  refine ⟨hbr, by rw [hpl], by rw [hpl], ?_⟩
  intro hlen hR
  have h8 : splitIndex F.length R = 8 := by
    have hz : (splitIndex F.length R : ℤ) = 8 := by
      rw [hbr, hlen, hR]
      norm_num
    exact_mod_cast hz
  have hsl := shuffle_length S F
  have h8' : splitIndex 10 R = 8 := by rw [← hlen]; exact h8
  refine ⟨h8, ?_, ?_⟩
  · rw [hpl]
    simp only [List.length_take, hsl, hlen, h8']
    omega
  · rw [hpl]
    simp only [List.length_drop, hsl, hlen, h8']

/-- Witness instantiating C9 at the spec's end-to-end example: 10 images,
ratio 0.8 (= 4/5), seed 42. -/
theorem C9_witness :
    splitIndex (List.range 10).length (mkRat 4 5) = 8 ∧
    (plan (List.range 10) (mkRat 4 5) 42).1.length = 8 ∧
    (plan (List.range 10) (mkRat 4 5) 42).2.length = 2 :=
  (C9 (List.range 10) (mkRat 4 5) 42 (by decide) (by decide) (by decide)).2.2.2
    (by decide) (by rw [Rat.mkRat_eq_div]; norm_num)

/-! Helper lemmas about the path order, the sort, and the selection scan. -/

theorem pathLe_refl (p : Path) : pathLe p p = true := by
  simp [pathLe]

theorem pathLe_total (p q : Path) : pathLe p q = true ∨ pathLe q p = true := by
  rcases le_total (pathKey p) (pathKey q) with h | h
  · left; simpa [pathLe] using h
  · right; simpa [pathLe] using h

theorem pathLe_trans {p q r : Path} (h1 : pathLe p q = true) (h2 : pathLe q r = true) :
    pathLe p r = true := by
  simp only [pathLe, decide_eq_true_eq] at h1 h2 ⊢
  exact le_trans h1 h2

theorem mem_insertLe {α : Type} {le : α → α → Bool} {x a : α} (l : List α) :
    a ∈ insertLe le x l ↔ a = x ∨ a ∈ l := by
  induction l with
  | nil => simp [insertLe]
  | cons y ys ih =>
    rw [insertLe]
    split
    · simp [List.mem_cons]
    · rw [List.mem_cons, ih, List.mem_cons]
      tauto

theorem mem_sortLe {α : Type} {le : α → α → Bool} {a : α} (l : List α) :
    a ∈ sortLe le l ↔ a ∈ l := by
  induction l with
  | nil => simp [sortLe]
  | cons x xs ih =>
    rw [sortLe, mem_insertLe, List.mem_cons, ih]

theorem pairwise_insertLe {x : Path} {l : List Path}
    (hl : l.Pairwise fun a b => pathLe a b = true) :
    (insertLe pathLe x l).Pairwise fun a b => pathLe a b = true := by
  induction l with
  | nil => simp [insertLe]
  | cons y ys ih =>
    rw [List.pairwise_cons] at hl
    obtain ⟨hy, hys⟩ := hl
    rw [insertLe]
    split
    · rename_i hle
      rw [List.pairwise_cons]
      refine ⟨?_, List.pairwise_cons.mpr ⟨hy, hys⟩⟩
      intro b hb
      rcases List.mem_cons.mp hb with rfl | hb
      · exact hle
      · exact pathLe_trans hle (hy b hb)
    · rename_i hle
      rw [List.pairwise_cons]
      refine ⟨?_, ih hys⟩
      intro b hb
      rcases (mem_insertLe ys).mp hb with rfl | hb
      · rcases pathLe_total b y with h | h
        · exact absurd h hle
        · exact h
      · exact hy b hb

theorem sortLe_pairwise (l : List Path) :
    (sortLe pathLe l).Pairwise fun a b => pathLe a b = true := by
  induction l with
  | nil => simp [sortLe]
  | cons x xs ih =>
    rw [sortLe]
    exact pairwise_insertLe ih

theorem discover_pairwise (fs : FS) (base : Path) :
    (discover_source_dirs fs base).Pairwise fun a b => pathLe a b = true :=
  (sortLe_pairwise _).filter _

theorem mem_discover_sub {fs : FS} {base d : Path}
    (h : d ∈ discover_source_dirs fs base) : d ∈ strictSubdirs fs base := by
  unfold discover_source_dirs sortPaths at h
  exact (mem_sortLe _).mp (List.mem_of_mem_filter h)

theorem not_mem_discover_self (fs : FS) (base : Path) :
    base ∉ discover_source_dirs fs base := by
  intro h
  have hs := mem_discover_sub h
  have hp := List.of_mem_filter hs
  simp at hp

theorem pyMax_mem {α : Type} (key : α → ℕ) :
    ∀ (l : List α) (x : α), pyMax key x l = x ∨ pyMax key x l ∈ l
  | [], _ => Or.inl rfl
  | y :: ys, x => by
    rw [pyMax]
    rcases pyMax_mem key ys (if key x < key y then y else x) with h | h
    · rw [h]
      split
      · exact Or.inr (List.mem_cons_self _ _)
      · exact Or.inl rfl
    · exact Or.inr (List.mem_cons_of_mem _ h)

theorem pyMax_key_le {α : Type} (key : α → ℕ) :
    ∀ (l : List α) (x y : α), (y = x ∨ y ∈ l) → key y ≤ key (pyMax key x l)
  | [], x, y, h => by
    rcases h with rfl | h
    · exact le_refl _
    · simp at h
  | z :: zs, x, y, h => by
    rw [pyMax]
    have hx : key x ≤ key (if key x < key z then z else x) := by
      split
      · exact le_of_lt (by assumption)
      · exact le_refl _
    have hz : key z ≤ key (if key x < key z then z else x) := by
      split
      · exact le_refl _
      · exact le_of_not_lt (by assumption)
    rcases h with rfl | h
    · exact le_trans hx (pyMax_key_le key zs _ _ (Or.inl rfl))
    · rcases List.mem_cons.mp h with rfl | h
      · exact le_trans hz (pyMax_key_le key zs _ _ (Or.inl rfl))
      · exact pyMax_key_le key zs _ y (Or.inr h)

theorem pyMax_eq_or_lt {α : Type} (key : α → ℕ) :
    ∀ (l : List α) (x : α),
      pyMax key x l = x ∨ (pyMax key x l ∈ l ∧ key x < key (pyMax key x l))
  | [], _ => Or.inl rfl
  | z :: zs, x => by
    rw [pyMax]
    by_cases hc : key x < key z
    · rw [if_pos hc]
      rcases pyMax_eq_or_lt key zs z with h | ⟨hm, hlt⟩
      · exact Or.inr ⟨by rw [h]; exact List.mem_cons_self _ _, by rw [h]; exact hc⟩
      · exact Or.inr ⟨List.mem_cons_of_mem _ hm, lt_trans hc hlt⟩
    · rw [if_neg hc]
      rcases pyMax_eq_or_lt key zs x with h | ⟨hm, hlt⟩
      · exact Or.inl h
      · exact Or.inr ⟨List.mem_cons_of_mem _ hm, hlt⟩

theorem pyMax_tie {α : Type} (key : α → ℕ) {r : α → α → Prop} :
    ∀ (l : List α) (x : α), (x :: l).Pairwise r →
      ∀ y, (y = x ∨ y ∈ l) → key y = key (pyMax key x l) →
        pyMax key x l = y ∨ r (pyMax key x l) y
  | [], x, _, y, hy, _ => by
    rcases hy with rfl | hy
    · exact Or.inl rfl
    · simp at hy
  | z :: zs, x, hpw, y, hy, hk => by
    rw [pyMax] at hk ⊢
    rw [List.pairwise_cons] at hpw
    obtain ⟨hxall, hpw'⟩ := hpw
    by_cases hc : key x < key z
    · rw [if_pos hc] at hk ⊢
      rcases hy with rfl | hy
      · exfalso
        have hzle := pyMax_key_le key zs z z (Or.inl rfl)
        omega
      · rcases List.mem_cons.mp hy with rfl | hy
        · exact pyMax_tie key zs y hpw' y (Or.inl rfl) hk
        · exact pyMax_tie key zs z hpw' y (Or.inr hy) hk
    · rw [if_neg hc] at hk ⊢
      have hpw'' : (x :: zs).Pairwise r := by
        rw [List.pairwise_cons]
        exact ⟨fun b hb => hxall b (List.mem_cons_of_mem _ hb),
          (List.pairwise_cons.mp hpw').2⟩
      rcases hy with rfl | hy
      · exact pyMax_tie key zs y hpw'' y (Or.inl rfl) hk
      · rcases List.mem_cons.mp hy with rfl | hy
        · rcases pyMax_eq_or_lt key zs x with h | ⟨_, hlt⟩
          · refine Or.inr ?_
            rw [h]
            exact hxall y (List.mem_cons_self _ _)
          · exfalso
            omega
        · exact pyMax_tie key zs x hpw'' y (Or.inr hy) hk

/-- C6: on a non-empty candidate list produced by discovery, selection
returns a candidate whose direct entry count is maximal, and on a tie the
lexicographically earlier path wins (discovery emits candidates sorted, so
the first maximum is the least tied path); on an empty candidate list
selection fails with the no-candidate error. -/
theorem C6 (fs : FS) (base : Path) :
    select_source fs [] = .error .noCandidate ∧
    ∀ c cs, discover_source_dirs fs base = c :: cs →
      ∃ src, select_source fs (c :: cs) = .ok src ∧ (src = c ∨ src ∈ cs) ∧
        (∀ d, (d = c ∨ d ∈ cs) → entryCount fs d ≤ entryCount fs src) ∧
        (∀ d, (d = c ∨ d ∈ cs) → entryCount fs d = entryCount fs src →
          pathLe src d = true) := by
  refine ⟨rfl, ?_⟩
  intro c cs hdisc
  refine ⟨pyMax (entryCount fs) c cs, rfl, pyMax_mem (entryCount fs) cs c,
    fun d hd => pyMax_key_le (entryCount fs) cs c d hd, ?_⟩
  intro d hd hk
  have hpw : (c :: cs).Pairwise fun a b => pathLe a b = true := by
    rw [← hdisc]
    exact discover_pairwise fs base
  rcases pyMax_tie (entryCount fs) cs c hpw d hd hk with h | h
  · rw [h]
    exact pathLe_refl d
  · exact h

/-- Witness instantiating C6 on a root with two tied candidate
directories; the lexicographically earlier one is selected. -/
theorem C6_witness :
    select_source fsTwoCands [] = .error .noCandidate ∧
    (∃ src, select_source fsTwoCands (candA :: [candB]) = .ok src ∧
      (src = candA ∨ src ∈ [candB]) ∧
      (∀ d, (d = candA ∨ d ∈ [candB]) →
        entryCount fsTwoCands d ≤ entryCount fsTwoCands src) ∧
      (∀ d, (d = candA ∨ d ∈ [candB]) →
        entryCount fsTwoCands d = entryCount fsTwoCands src →
          pathLe src d = true)) :=
  ⟨(C6 fsTwoCands dataDir).1, (C6 fsTwoCands dataDir).2 candA [candB] (by decide)⟩

/-- C10: discovery enumerates only strict subdirectories of the root, so
the root itself is never a candidate; a root that directly holds paired
image and label files but has no qualifying subdirectory yields an empty
candidate list, and formatting then fails with the no-candidate error. -/
theorem C10 (fs : FS) (base : Path)
    (hb : existsPath fs base = true)
    (hskip : (existsPath fs (base ++ [trainN, imagesN]) &&
      (existsPath fs (base ++ [valN, imagesN]) ||
        existsPath fs (base ++ [testN, imagesN]))) = false)
    (hroot : qualifies fs base = true)
    (hsub : ∀ d ∈ strictSubdirs fs base, qualifies fs d = false) :
    (∀ (fs' : FS) (base' : Path), base' ∉ discover_source_dirs fs' base') ∧
    discover_source_dirs fs base = [] ∧
    ∀ (r : ℚ) (s : ℕ), auto_format_dataset fs base r s = (.error .noCandidate, fs) := by
  have hnil : discover_source_dirs fs base = [] := by
    unfold discover_source_dirs
    rw [List.filter_eq_nil_iff]
    intro a ha
    have hmem : a ∈ strictSubdirs fs base := by
      unfold sortPaths at ha
      exact (mem_sortLe _).mp ha
    simp [hsub a hmem]
  refine ⟨fun fs' base' => not_mem_discover_self fs' base', hnil, ?_⟩
  intro r s
  simp [auto_format_dataset, hb, hskip, hnil, select_source]

/-- Witness instantiating C10 on a flat root holding a paired image and
label directly, with no subdirectory at all. -/
theorem C10_witness :
    discover_source_dirs fsFlatRoot dataDir = [] ∧
    auto_format_dataset fsFlatRoot dataDir (mkRat 4 5) 42 =
      (.error .noCandidate, fsFlatRoot) :=
  ⟨(C10 fsFlatRoot dataDir (by decide) (by decide) (by decide) (by decide)).2.1,
   (C10 fsFlatRoot dataDir (by decide) (by decide) (by decide) (by decide)).2.2
     (mkRat 4 5) 42⟩

/-- C8: when `rootDir/train/images` exists together with `rootDir/val/images`
or `rootDir/test/images`, the formatting stage is a pure no-op: both the
formatting script's own pre-check and the downloader's pre-check return
success immediately and leave the filesystem unchanged. -/
theorem C8 (fs : FS) (base : Path) (r : ℚ) (s : ℕ)
    (hb : existsPath fs base = true)
    (ht : existsPath fs (base ++ [trainN, imagesN]) = true)
    (hvt : existsPath fs (base ++ [valN, imagesN]) = true ∨
      existsPath fs (base ++ [testN, imagesN]) = true) :
    auto_format_dataset fs base r s = (.ok .skipped, fs) ∧
    auto_format_if_needed fs base = (.ok .skipped, fs) := by
  rcases hvt with hv | hv
  · constructor <;> simp [auto_format_dataset, auto_format_if_needed, hb, ht, hv]
  · constructor <;> simp [auto_format_dataset, auto_format_if_needed, hb, ht, hv]

/-- Witness instantiating C8 on an already canonical root. -/
theorem C8_witness :
    auto_format_dataset fsCanonical dataDir (mkRat 4 5) 42 = (.ok .skipped, fsCanonical) ∧
    auto_format_if_needed fsCanonical dataDir = (.ok .skipped, fsCanonical) :=
  C8 fsCanonical dataDir (mkRat 4 5) 42 (by decide) (by decide) (Or.inl (by decide))

/-- C7: with a non-empty class list, manifest generation fails with the
missing-train-split error when `root/train/images` does not exist, and
otherwise resolves the validation path to `val/images` when present, else
`test/images` (with a non-fatal warning), else `train/images` (with a
non-fatal warning); every emitted descriptor carries `nc` equal to the
class count and the class names in their given order. -/
theorem C7 (classes : List Name) (root : Path) (fs : FS) (hc : classes ≠ []) :
    (existsPath fs (root ++ [trainN, imagesN]) = false →
      generate_data_yaml classes root fs = .error .missingTrainSplit) ∧
    (existsPath fs (root ++ [trainN, imagesN]) = true →
      existsPath fs (root ++ [valN, imagesN]) = true →
      generate_data_yaml classes root fs =
        .ok (⟨root ++ [trainN, imagesN], root ++ [valN, imagesN],
          classes.length, classes⟩, .fromVal)) ∧
    (existsPath fs (root ++ [trainN, imagesN]) = true →
      existsPath fs (root ++ [valN, imagesN]) = false →
      existsPath fs (root ++ [testN, imagesN]) = true →
      generate_data_yaml classes root fs =
        .ok (⟨root ++ [trainN, imagesN], root ++ [testN, imagesN],
          classes.length, classes⟩, .fromTest)) ∧
    (existsPath fs (root ++ [trainN, imagesN]) = true →
      existsPath fs (root ++ [valN, imagesN]) = false →
      existsPath fs (root ++ [testN, imagesN]) = false →
      generate_data_yaml classes root fs =
        .ok (⟨root ++ [trainN, imagesN], root ++ [trainN, imagesN],
          classes.length, classes⟩, .fromTrain)) ∧
    (∀ m ch, generate_data_yaml classes root fs = .ok (m, ch) →
      m.nc = classes.length ∧ m.names = classes) := by
  have hce : classes.isEmpty = false := by
    rw [Bool.eq_false_iff]
    intro h
    exact hc (List.isEmpty_iff.mp h)
  refine ⟨?_, ?_, ?_, ?_, ?_⟩
  · intro h1
    simp [generate_data_yaml, hce, h1]
  · intro h1 h2
    simp [generate_data_yaml, hce, h1, h2]
  · intro h1 h2 h3
    simp [generate_data_yaml, hce, h1, h2, h3]
  · intro h1 h2 h3
    simp [generate_data_yaml, hce, h1, h2, h3]
  · intro m ch h
    unfold generate_data_yaml at h
    simp only [hce] at h
    split_ifs at h <;> (try simp at h) <;>
      (obtain ⟨hm, hch⟩ := h; rw [← hm]; exact ⟨rfl, rfl⟩)

/-- Witness instantiating C7 on a root with `train/images` and
`test/images` but no `val/images`: the validation path resolves to
`test/images` and `nc` is the declared class count. -/
theorem C7_witness :
    generate_data_yaml carClasses dataDir fsTrainTest =
      .ok (⟨dataDir ++ [trainN, imagesN], dataDir ++ [testN, imagesN],
        carClasses.length, carClasses⟩, .fromTest) :=
  (C7 carClasses dataDir fsTrainTest (by decide)).2.2.1 (by decide) (by decide) (by decide)

/-! Helper lemmas about directory creation and the target checks. -/

theorem addDir_files (fs : FS) (p : Path) : (addDir fs p).files = fs.files := by
  unfold addDir
  split <;> rfl

theorem mem_addDir_dirs {fs : FS} {p q : Path} :
    q ∈ (addDir fs p).dirs ↔ q = p ∨ q ∈ fs.dirs := by
  unfold addDir
  split
  · rename_i h
    constructor
    · exact fun hq => Or.inr hq
    · rintro (rfl | hq)
      · exact h
      · exact hq
  · simp [List.mem_cons]

theorem foldl_addDir_files : ∀ (l : List Path) (fs : FS),
    (l.foldl addDir fs).files = fs.files
  | [], _ => rfl
  | p :: l, fs => by
    rw [List.foldl_cons, foldl_addDir_files l, addDir_files]

theorem mem_foldl_addDir_dirs : ∀ (l : List Path) (fs : FS) (q : Path),
    q ∈ (l.foldl addDir fs).dirs ↔ q ∈ l ∨ q ∈ fs.dirs
  | [], fs, q => by simp
  | p :: l, fs, q => by
    rw [List.foldl_cons, mem_foldl_addDir_dirs l, List.mem_cons, mem_addDir_dirs]
    tauto

theorem children_addDir {fs : FS} {p t : Path} (h : isChildOf p t = false) :
    children (addDir fs p) t = children fs t := by
  unfold addDir
  split
  · rfl
  · show List.filter _ ((p :: fs.dirs) ++ fs.files) = _
    rw [List.cons_append, List.filter_cons]
    simp [h, children]

theorem children_foldl_addDir : ∀ (l : List Path) (fs : FS) {t : Path},
    (∀ q ∈ l, isChildOf q t = false) →
    children (l.foldl addDir fs) t = children fs t
  | [], _, _, _ => rfl
  | p :: l, fs, t, h => by
    rw [List.foldl_cons,
      children_foldl_addDir l _ (fun q hq => h q (List.mem_cons_of_mem _ hq)),
      children_addDir (h p (List.mem_cons_self _ _))]

theorem isChildOf_length {q t : Path} (h : isChildOf q t = true) :
    q.length = t.length + 1 := by
  unfold isChildOf at h
  rw [Bool.and_eq_true] at h
  obtain ⟨h1, h2⟩ := h
  rw [decide_eq_true_eq] at h2
  have hq : q ≠ [] := by simpa using h1
  have hdl := congrArg List.length h2
  rw [List.length_dropLast] at hdl
  have hpos : 0 < q.length := List.length_pos.mpr hq
  omega

theorem mkdirp_files (fs : FS) (p : Path) : (mkdirp fs p).files = fs.files :=
  foldl_addDir_files _ _

theorem self_mem_mkdirp (fs : FS) {p : Path} (hp : p ≠ []) :
    p ∈ (mkdirp fs p).dirs := by
  rw [mkdirp, mem_foldl_addDir_dirs]
  left
  have hl : 0 < p.length := List.length_pos.mpr hp
  refine List.mem_map.mpr ⟨p.length - 1, ?_, ?_⟩
  · rw [List.mem_range]
    omega
  · rw [show p.length - 1 + 1 = p.length by omega, List.take_length]

theorem children_mkdirp_of_le (fs : FS) {p t : Path} (h : p.length ≤ t.length) :
    children (mkdirp fs p) t = children fs t := by
  rw [mkdirp]
  apply children_foldl_addDir
  intro q hq
  rcases List.mem_map.mp hq with ⟨i, _, rfl⟩
  cases hc : isChildOf (p.take (i + 1)) t
  · rfl
  · exfalso
    have hlen := isChildOf_length hc
    rw [List.length_take] at hlen
    omega

theorem ensureGo_files : ∀ (ts : List Path) (fs : FS),
    (ensureGo fs ts).2.files = fs.files
  | [], _ => rfl
  | t :: ts, fs => by
    rw [ensureGo]
    split
    · rfl
    · rw [ensureGo_files ts, mkdirp_files]

theorem ensureGo_dirs_mono : ∀ (ts : List Path) (fs : FS) (q : Path),
    q ∈ fs.dirs → q ∈ (ensureGo fs ts).2.dirs
  | [], _, _, h => h
  | t :: ts, fs, q, h => by
    rw [ensureGo]
    split
    · exact h
    · refine ensureGo_dirs_mono ts _ q ?_
      rw [mkdirp, mem_foldl_addDir_dirs]
      exact Or.inr h

theorem ensureGo_ok : ∀ (ts : List Path) (fs : FS),
    (∀ t ∈ ts, children fs t = []) →
    (∀ t ∈ ts, ∀ u ∈ ts, u.length ≤ t.length) →
    (∀ t ∈ ts, t ≠ []) →
    (ensureGo fs ts).1 = none ∧ (∀ t ∈ ts, t ∈ (ensureGo fs ts).2.dirs) ∧
      (ensureGo fs ts).2.files = fs.files
  | [], fs, _, _, _ => ⟨rfl, by simp, rfl⟩
  | t :: ts, fs, hemp, hlen, hne => by
    have hch : children fs t = [] := hemp t (List.mem_cons_self _ _)
    have hcond : (existsPath fs t && !(children fs t).isEmpty) = false := by
      rw [hch]
      simp
    have hred : ensureGo fs (t :: ts) = ensureGo (mkdirp fs t) ts := by
      rw [ensureGo]
      exact if_neg (by simp [hcond])
    have hfs' : ∀ u ∈ ts, children (mkdirp fs t) u = children fs u := by
      intro u hu
      exact children_mkdirp_of_le fs
        (hlen u (List.mem_cons_of_mem _ hu) t (List.mem_cons_self _ _))
    obtain ⟨h1, h2, h3⟩ := ensureGo_ok ts (mkdirp fs t)
      (fun u hu => by rw [hfs' u hu]; exact hemp u (List.mem_cons_of_mem _ hu))
      (fun u hu v hv => hlen u (List.mem_cons_of_mem _ hu) v (List.mem_cons_of_mem _ hv))
      (fun u hu => hne u (List.mem_cons_of_mem _ hu))
    rw [hred]
    refine ⟨h1, ?_, by rw [h3, mkdirp_files]⟩
    intro u hu
    rcases List.mem_cons.mp hu with rfl | hu
    · exact ensureGo_dirs_mono ts _ u (self_mem_mkdirp fs (hne u (List.mem_cons_self _ _)))
    · exact h2 u hu

/-- C5: when `train/images` (the first target checked) exists and already
has an entry, `ensure_clean_targets` fails with the non-empty-target error
before creating any directory, leaving the filesystem exactly as it was;
when all four leaf targets have no entries, it succeeds, creates all four
(with parents), and touches no file; and whenever the formatting run
aborts with the non-empty-target error, no file has been copied — every
target is checked before any copy starts. -/
theorem C5 (fs : FS) (base : Path) (r : ℚ) (s : ℕ) :
    (existsPath fs (base ++ [trainN, imagesN]) = true →
      children fs (base ++ [trainN, imagesN]) ≠ [] →
      ensure_clean_targets fs base = (some .nonEmptyTarget, fs)) ∧
    ((∀ t ∈ targetDirs base, children fs t = []) →
      (ensure_clean_targets fs base).1 = none ∧
      (∀ t ∈ targetDirs base, t ∈ (ensure_clean_targets fs base).2.dirs) ∧
      (ensure_clean_targets fs base).2.files = fs.files) ∧
    ((auto_format_dataset fs base r s).1 = .error .nonEmptyTarget →
      (auto_format_dataset fs base r s).2.files = fs.files) := by
  refine ⟨?_, ?_, ?_⟩
  · intro hex hne
    have hie : (children fs (base ++ [trainN, imagesN])).isEmpty = false := by
      rw [Bool.eq_false_iff]
      intro hi
      exact hne (List.isEmpty_iff.mp hi)
    have hcond : (existsPath fs (base ++ [trainN, imagesN]) &&
        !(children fs (base ++ [trainN, imagesN])).isEmpty) = true := by
      rw [hex, hie]
      rfl
    unfold ensure_clean_targets targetDirs
    rw [ensureGo]
    exact if_pos (by simp [hcond])
  · intro hemp
    have hlen : ∀ t ∈ targetDirs base, ∀ u ∈ targetDirs base, u.length ≤ t.length := by
      intro t ht u hu
      simp only [targetDirs, List.mem_cons, List.not_mem_nil, or_false] at ht hu
      rcases ht with rfl | rfl | rfl | rfl <;> rcases hu with rfl | rfl | rfl | rfl <;>
        simp [List.length_append]
    have hne : ∀ t ∈ targetDirs base, t ≠ [] := by
      intro t ht
      simp only [targetDirs, List.mem_cons, List.not_mem_nil, or_false] at ht
      rcases ht with rfl | rfl | rfl | rfl <;> simp
    exact ensureGo_ok (targetDirs base) fs hemp hlen hne
  · intro h
    have hcases : (auto_format_dataset fs base r s).1 = Except.ok .formatted ∨
        (auto_format_dataset fs base r s).2.files = fs.files := by
      unfold auto_format_dataset
      split
      · exact Or.inr rfl
      split
      · exact Or.inr rfl
      split
      · exact Or.inr rfl
      · simp only [format_body]
        split
        · exact Or.inr rfl
        · split
          · rename_i heq
            right
            have hf : (ensure_clean_targets fs base).2.files = fs.files :=
              ensureGo_files _ _
            rw [heq] at hf
            exact hf
          · exact Or.inl rfl
    rcases hcases with h1 | h1
    · rw [h1] at h
      exact absurd h (by simp)
    · exact h1

/-- Witness instantiating C5: a dirty `train/images` aborts with no
mutation, a bare root gets all four targets created, and an aborted
formatting run copies no file. -/
theorem C5_witness :
    ensure_clean_targets fsDirtyTrain dataDir = (some .nonEmptyTarget, fsDirtyTrain) ∧
    ((ensure_clean_targets fsBareRoot dataDir).1 = none ∧
      (∀ t ∈ targetDirs dataDir, t ∈ (ensure_clean_targets fsBareRoot dataDir).2.dirs) ∧
      (ensure_clean_targets fsBareRoot dataDir).2.files = fsBareRoot.files) ∧
    (auto_format_dataset fsDirtyWithSource dataDir (mkRat 4 5) 42).2.files =
      fsDirtyWithSource.files :=
  ⟨(C5 fsDirtyTrain dataDir (mkRat 4 5) 42).1 (by decide) (by decide),
   (C5 fsBareRoot dataDir (mkRat 4 5) 42).2.1 (by decide),
   (C5 fsDirtyWithSource dataDir (mkRat 4 5) 42).2.2 (by rfl)⟩

/-! Helper lemmas about the orchestrator. -/

theorem runStages_skip (s : Stage) (o : StageOutcome)
    (rest : List (Stage × Bool × StageOutcome)) :
    runStages ((s, true, o) :: rest) = runStages rest := by
  simp [runStages]

theorem runStages_success (s : Stage) (rest : List (Stage × Bool × StageOutcome)) :
    runStages ((s, false, .success) :: rest) =
      (s :: (runStages rest).1, (runStages rest).2) := by
  simp [runStages]

theorem runStages_failure (s : Stage) (c : Option Int)
    (rest : List (Stage × Bool × StageOutcome)) :
    runStages ((s, false, .failure c) :: rest) = ([s], c.getD 1) := by
  simp [runStages]

theorem runStages_fail_gen (s : Stage) (c : Option Int) :
    ∀ (pre : List (Stage × Bool × StageOutcome))
      (rest : List (Stage × Bool × StageOutcome)),
      (∀ e ∈ pre, e.2.1 = true ∨ e.2.2 = StageOutcome.success) →
      ∃ l, runStages (pre ++ (s, false, StageOutcome.failure c) :: rest) =
          (l ++ [s], c.getD 1) ∧
        ∀ x ∈ l, ∃ e ∈ pre, e.1 = x
  | [], rest, _ =>
    ⟨[], by rw [List.nil_append, runStages_failure, List.nil_append], by simp⟩
  | ⟨t, skip, out⟩ :: pre, rest, hpre => by
    obtain ⟨l, hl, hmem⟩ := runStages_fail_gen s c pre rest
      (fun e' he' => hpre e' (List.mem_cons_of_mem _ he'))
    have hlift : ∀ x ∈ l, ∃ e ∈ (⟨t, skip, out⟩ :: pre :
        List (Stage × Bool × StageOutcome)), e.1 = x := by
      intro x hx
      obtain ⟨e', he', hx'⟩ := hmem x hx
      exact ⟨e', List.mem_cons_of_mem _ he', hx'⟩
    rcases hpre ⟨t, skip, out⟩ (List.mem_cons_self _ _) with h | h
    · have h' : skip = true := h
      subst h'
      exact ⟨l, by rw [List.cons_append, runStages_skip, hl], hlift⟩
    · have h' : out = StageOutcome.success := h
      subst h'
      cases skip
      · refine ⟨t :: l, ?_, ?_⟩
        · rw [List.cons_append, runStages_success, hl]
          rfl
        · intro x hx
          rcases List.mem_cons.mp hx with rfl | hx
          · exact ⟨⟨x, false, .success⟩, List.mem_cons_self _ _, rfl⟩
          · exact hlift x hx
      · exact ⟨l, by rw [List.cons_append, runStages_skip, hl], hlift⟩

theorem run_pipeline_fail (sk : Skips) (env : StageEnv) (s : Stage) (c : Option Int)
    (hns : skipOf sk s = false) (hf : outcomeOf env s = .failure c)
    (hpre : ∀ t : Stage, stageIdx t < stageIdx s →
      skipOf sk t = true ∨ outcomeOf env t = .success) :
    ∃ l, run_pipeline sk env = (l ++ [s], c.getD 1) ∧
      ∀ x ∈ l, stageIdx x < stageIdx s := by
  cases s
  case download =>
    have h0 : sk.download = false := hns
    have h1 : env.download = .failure c := hf
    obtain ⟨l, hl, hm⟩ := runStages_fail_gen .download c []
      [(.format, sk.format, env.format), (.prepare, sk.prepare, env.prepare),
        (.train, sk.train, env.train)] (by simp)
    simp only [List.nil_append] at hl
    refine ⟨l, ?_, ?_⟩
    · simp only [run_pipeline]
      rw [h0, h1]
      exact hl
    · intro x hx
      obtain ⟨e, he, _⟩ := hm x hx
      simp at he
  case format =>
    have h0 : sk.format = false := hns
    have h1 : env.format = .failure c := hf
    have hd : sk.download = true ∨ env.download = .success := by
      simpa [skipOf, outcomeOf] using hpre .download (by simp [stageIdx])
    obtain ⟨l, hl, hm⟩ := runStages_fail_gen .format c
      [(.download, sk.download, env.download)]
      [(.prepare, sk.prepare, env.prepare), (.train, sk.train, env.train)]
      (by
        intro e he
        simp only [List.mem_singleton] at he
        subst he
        simpa using hd)
    simp only [List.cons_append, List.nil_append] at hl
    refine ⟨l, ?_, ?_⟩
    · simp only [run_pipeline]
      rw [h0, h1]
      exact hl
    · intro x hx
      obtain ⟨e, he, hex⟩ := hm x hx
      simp only [List.mem_singleton] at he
      subst he
      have hx' : x = Stage.download := hex.symm
      subst hx'
      simp [stageIdx]
  case prepare =>
    have h0 : sk.prepare = false := hns
    have h1 : env.prepare = .failure c := hf
    have hd : sk.download = true ∨ env.download = .success := by
      simpa [skipOf, outcomeOf] using hpre .download (by simp [stageIdx])
    have hfo : sk.format = true ∨ env.format = .success := by
      simpa [skipOf, outcomeOf] using hpre .format (by simp [stageIdx])
    obtain ⟨l, hl, hm⟩ := runStages_fail_gen .prepare c
      [(.download, sk.download, env.download), (.format, sk.format, env.format)]
      [(.train, sk.train, env.train)]
      (by
        intro e he
        simp only [List.mem_cons, List.mem_singleton, List.not_mem_nil, or_false] at he
        rcases he with rfl | rfl
        · simpa using hd
        · simpa using hfo)
    simp only [List.cons_append, List.nil_append] at hl
    refine ⟨l, ?_, ?_⟩
    · simp only [run_pipeline]
      rw [h0, h1]
      exact hl
    · intro x hx
      obtain ⟨e, he, hex⟩ := hm x hx
      simp only [List.mem_cons, List.mem_singleton, List.not_mem_nil, or_false] at he
      rcases he with rfl | rfl
      · have hx' : x = Stage.download := hex.symm
        subst hx'
        simp [stageIdx]
      · have hx' : x = Stage.format := hex.symm
        subst hx'
        simp [stageIdx]
  case train =>
    have h0 : sk.train = false := hns
    have h1 : env.train = .failure c := hf
    have hd : sk.download = true ∨ env.download = .success := by
      simpa [skipOf, outcomeOf] using hpre .download (by simp [stageIdx])
    have hfo : sk.format = true ∨ env.format = .success := by
      simpa [skipOf, outcomeOf] using hpre .format (by simp [stageIdx])
    have hp : sk.prepare = true ∨ env.prepare = .success := by
      simpa [skipOf, outcomeOf] using hpre .prepare (by simp [stageIdx])
    obtain ⟨l, hl, hm⟩ := runStages_fail_gen .train c
      [(.download, sk.download, env.download), (.format, sk.format, env.format),
        (.prepare, sk.prepare, env.prepare)] []
      (by
        intro e he
        simp only [List.mem_cons, List.mem_singleton, List.not_mem_nil, or_false] at he
        rcases he with rfl | rfl | rfl
        · simpa using hd
        · simpa using hfo
        · simpa using hp)
    simp only [List.cons_append, List.nil_append] at hl
    refine ⟨l, ?_, ?_⟩
    · simp only [run_pipeline]
      rw [h0, h1]
      exact hl
    · intro x hx
      obtain ⟨e, he, hex⟩ := hm x hx
      simp only [List.mem_cons, List.mem_singleton, List.not_mem_nil, or_false] at he
      rcases he with rfl | rfl | rfl
      · have hx' : x = Stage.download := hex.symm
        subst hx'
        simp [stageIdx]
      · have hx' : x = Stage.format := hex.symm
        subst hx'
        simp [stageIdx]
      · have hx' : x = Stage.prepare := hex.symm
        subst hx'
        simp [stageIdx]

/-- C2: if a non-skipped stage fails while every earlier non-skipped stage
succeeded, the run stops there — no later stage is invoked — and the
orchestrator's exit code is that stage's own failure code, defaulting to 1
when the code is unavailable; in particular, a Format failure means
Prepare and Train never execute. -/
theorem C2 (sk : Skips) (env : StageEnv) (s : Stage) (c : Option Int)
    (hns : skipOf sk s = false) (hf : outcomeOf env s = .failure c)
    (hpre : ∀ t : Stage, stageIdx t < stageIdx s →
      skipOf sk t = true ∨ outcomeOf env t = .success) :
    (∀ t : Stage, stageIdx s < stageIdx t → t ∉ (run_pipeline sk env).1) ∧
    (run_pipeline sk env).2 = c.getD 1 ∧
    (s = .format → Stage.prepare ∉ (run_pipeline sk env).1 ∧
      Stage.train ∉ (run_pipeline sk env).1) := by
  obtain ⟨l, hl, hm⟩ := run_pipeline_fail sk env s c hns hf hpre
  rw [hl]
  refine ⟨?_, rfl, ?_⟩
  · intro t ht
    simp only [List.mem_append, List.mem_singleton]
    rintro (htl | rfl)
    · have := hm t htl
      omega
    · omega
  · rintro rfl
    constructor
    · simp only [List.mem_append, List.mem_singleton]
      rintro (htl | heq)
      · have := hm _ htl
        simp [stageIdx] at this
      · exact absurd heq (by decide)
    · simp only [List.mem_append, List.mem_singleton]
      rintro (htl | heq)
      · have := hm _ htl
        simp [stageIdx] at this
      · exact absurd heq (by decide)

/-- Witness instantiating C2: with nothing skipped, a Format failure with
code 3 after a successful Download yields exit code 3 and never invokes
Prepare or Train. -/
theorem C2_witness :
    (run_pipeline ⟨false, false, false, false⟩
      ⟨.success, .failure (some 3), .success, .success⟩).2 = 3 ∧
    Stage.prepare ∉ (run_pipeline ⟨false, false, false, false⟩
      ⟨.success, .failure (some 3), .success, .success⟩).1 ∧
    Stage.train ∉ (run_pipeline ⟨false, false, false, false⟩
      ⟨.success, .failure (some 3), .success, .success⟩).1 := by
  have h := C2 ⟨false, false, false, false⟩
    ⟨.success, .failure (some 3), .success, .success⟩ .format (some 3) rfl rfl
    (by
      intro t ht
      cases t
      · exact Or.inr rfl
      · simp [stageIdx] at ht
      · simp [stageIdx] at ht
      · simp [stageIdx] at ht)
  exact ⟨h.2.1, (h.2.2 rfl).1, (h.2.2 rfl).2⟩

end YoloTrain
